import Mathlib

/-!
Shallow embedding of `simple-audio-worklet` (src/src/index.ts).

The adapter wraps a user implementation (pure function, class, or generator)
into an `AudioWorkletProcessor` whose `process` method drives a per-frame loop.
We model the mutable fields of the generated `Subclass` as an explicit `State`
record, the per-block `process` method as a function from state and host
buffers to a new state plus output buffers, messages posted on the port, the
continue flag, and a ghost log of the invocations of the user implementation
(the log records exactly which underlying callable ran at which frame index,
and with which `FrameArgs`; it does not influence behavior).

Samples are modelled as integers: the code only copies sample values between
buffers (no float arithmetic happens anywhere in the adapter), so the carrier
of sample values is irrelevant; `Int` keeps everything decidable.  A JS
`undefined` read (out-of-range array index) is modelled as the default `0`;
theorems put hypotheses in place so that no conclusion depends on that choice.
The `port` handle inside `FrameArgs` is omitted: no claim concerns messages
posted by the user implementation itself.
-/

namespace SAW

abbrev Sample := Int

structure Env where
  outputChannelCount : Nat
  sampleRate : Int
  deriving DecidableEq, Repr

/-- The `FrameArgs` record (`this.args` in the source): the frame context
passed to the implementation on every frame. -/
structure FrameArgs where
  parameters : String → Sample
  input : List Sample
  env : Env

/-- `Output` in the source: a number or an array of numbers. -/
inductive Output where
  | num (x : Sample)
  | arr (xs : List Sample)
  deriving DecidableEq, Repr

/-- `FrameOutput` in the source: an `Output`, or a generator-style
`{value, done}` wrapper (`isYieldOutput` distinguishes them by the presence
of an own `value` property). -/
inductive FrameOutput where
  | out (v : Output)
  | yld (v : Output) (done : Bool)
  deriving DecidableEq, Repr

/-- A generator implementation (`type: 'g'`): calling the generator function
with `args` creates an iterator without running the body (`init`); each
`iterator.next(args)` call resumes it and yields `{value, done}` (`resume`);
`iterator.return` may or may not be present (`hasReturn`). -/
structure GenImpl (γ : Type) where
  init : FrameArgs → γ
  resume : γ → FrameArgs → Output × Bool × γ
  hasReturn : Bool

/-- A class implementation (`type: 'c'`): `new (implementation.impl)()` is
invoked with no arguments (`ctor : Unit → κ`), and the instance either
exposes a `next` method or it does not. -/
structure ClsImpl (κ : Type) where
  ctor : Unit → κ
  instNext : Option (κ → FrameArgs → FrameOutput × κ)

/-- The tagged union of the three accepted implementation shapes. -/
inductive Implementation (γ κ : Type) where
  | gen (g : GenImpl γ)
  | cls (c : ClsImpl κ)
  | pureFn (f : FrameArgs → FrameOutput)

/-- The memoized `this.next` target: `first` before resolution, then the
bound iterator `next`, the bound instance `next`, or the pure function. -/
inductive Resolved (γ κ : Type) where
  | unresolved
  | genIter (resume : γ → FrameArgs → Output × Bool × γ) (s : γ)
  | clsInst (nf : κ → FrameArgs → FrameOutput × κ) (s : κ)
  | pureF (f : FrameArgs → FrameOutput)

/-- Ghost record of one invocation of user-supplied code.  `ctorCall` carries
no `FrameArgs` because the source invokes the class constructor with no
arguments. -/
inductive CallEvent where
  | genCreate (a : FrameArgs)
  | genResume (a : FrameArgs)
  | ctorCall
  | classNext (a : FrameArgs)
  | pureCall (a : FrameArgs)

/-- The `FrameArgs` observed by the user code in this invocation, if any. -/
def CallEvent.args : CallEvent → Option FrameArgs
  | .genCreate a => some a
  | .genResume a => some a
  | .ctorCall => none
  | .classNext a => some a
  | .pureCall a => some a

def CallEvent.isGenResume : CallEvent → Bool
  | .genResume _ => true
  | _ => false

def CallEvent.isCtorCall : CallEvent → Bool
  | .ctorCall => true
  | _ => false

/-- The two error shapes thrown by the adapter: the `RangeError` for a
`process` call after completion (ContractViolation) and the `Error` for an
implementation that resolves to no accepted shape (InitializationError). -/
inductive WorkletError where
  | contractViolation
  | initializationError
  deriving DecidableEq, Repr

/-- The mutable fields of the generated `Subclass`, plus the ghost counter
`cleanupRuns` recording how many times `this.cleanup()` has been invoked. -/
structure State (γ κ : Type) where
  resolved : Resolved γ κ
  isDone : Bool
  cleanup : Bool
  params : String → Sample
  inputBuf : List Sample
  env : Env
  cleanupRuns : Nat

/-- State after the `Subclass` constructor ran. -/
def initState (γ κ : Type) (outputChannelCount : Nat) (sr : Int) : State γ κ :=
  { resolved := .unresolved
    isDone := false
    cleanup := false
    params := fun _ => 0
    inputBuf := []
    env := ⟨outputChannelCount, sr⟩
    cleanupRuns := 0 }

/-- `stop()`: sets `this.isDone` and runs `this.cleanup` when one was
captured. -/
def stop (s : State γ κ) : State γ κ :=
  { s with
    isDone := true
    cleanupRuns := if s.cleanup then s.cleanupRuns + 1 else s.cleanupRuns }

/-- `e.data.toString().toLowerCase()`: per-character lowercasing of the
message text (the message is modelled as a string). -/
def lowercase (str : String) : String := ⟨str.data.map Char.toLower⟩

/-- The message listener installed in the constructor: any message whose
lower-cased text is `"stop"` triggers `stop()`. -/
def handleMessage (s : State γ κ) (data : String) : State γ κ :=
  if lowercase data = "stop" then stop s else s

/-- `first(args)`: resolve the implementation shape on the first frame.
Returns the frame output, the new `this.next` target, the new `this.cleanup`
presence flag, and the ghost events. -/
def first (impl : Implementation γ κ) (cl : Bool) (a : FrameArgs) :
    Except WorkletError (FrameOutput × Resolved γ κ × Bool × List CallEvent) :=
  match impl with
  | .gen g =>
      .ok (.out (.num 0), .genIter g.resume (g.init a), g.hasReturn, [.genCreate a])
  | .pureFn f =>
      .ok (f a, .pureF f, cl, [.pureCall a])
  | .cls c =>
      match c.instNext with
      | some nf =>
          let inst := c.ctor ()
          let r := nf inst a
          .ok (r.1, .clsInst nf r.2, cl, [.ctorCall, .classNext a])
      | none => .error .initializationError

/-- One invocation of `this.next(this.args)`. -/
def callNext (impl : Implementation γ κ) (r : Resolved γ κ) (cl : Bool) (a : FrameArgs) :
    Except WorkletError (FrameOutput × Resolved γ κ × Bool × List CallEvent) :=
  match r with
  | .unresolved => first impl cl a
  | .genIter res s =>
      let r' := res s a
      .ok (.yld r'.1 r'.2.1, .genIter res r'.2.2, cl, [.genResume a])
  | .clsInst nf s =>
      let r' := nf s a
      .ok (r'.1, .clsInst nf r'.2, cl, [.classNext a])
  | .pureF f => .ok (f a, .pureF f, cl, [.pureCall a])

/-- JS `array.length = n` on a numeric array: truncate, or pad (the pad is
modelled as `0`; in the source every padded slot is overwritten before it can
be observed). -/
def setLength (l : List Sample) (n : Nat) : List Sample :=
  l.take n ++ List.replicate (n - l.length) 0

/-- Lines 79-82: per frame, for each live input channel, set
`this.args.input.length = input.length` and copy that channel's sample. -/
def updateInput (buf : List Sample) (input : List (List Sample)) (frame : Nat) :
    List Sample :=
  (List.range input.length).foldl
    (fun acc ch => (setLength acc input.length).set ch ((input.getD ch []).getD frame 0))
    buf

/-- `parameters[key]` object access. -/
def lookupKey (k : String) : List (String × List Sample) → Option (List Sample)
  | [] => none
  | kv :: rest => if kv.1 = k then some kv.2 else lookupKey k rest

/-- Lines 58-65: write each parameter's first value into
`this.args.parameters` (in key iteration order), collecting into `changed`
the keys whose automation array length is not 1, in the same order. -/
def snapshotParams : List (String × List Sample) → (String → Sample) →
    (String → Sample) × List String
  | [], p => (p, [])
  | kv :: rest, p =>
      let r := snapshotParams rest (Function.update p kv.1 (kv.2.getD 0 0))
      (r.1, (if kv.2.length ≠ 1 then [kv.1] else []) ++ r.2)

/-- Lines 75-77: per frame, overwrite each changed parameter (in order) with
that frame's value. -/
def updateChanged (pp : List (String × List Sample)) : List String →
    Nat → (String → Sample) → String → Sample
  | [], _, p => p
  | key :: rest, frame, p =>
      updateChanged pp rest frame
        (Function.update p key (((lookupKey key pp).getD []).getD frame 0))

/-- Write `v ch` at index `frame` of every output channel `ch`
(`for (let channel = 0; channel < output.length; ++channel)`). -/
def writeAll (output : List (List Sample)) (frame : Nat) (v : Nat → Sample) :
    List (List Sample) :=
  match output with
  | [] => []
  | c :: rest => c.set frame (v 0) :: writeAll rest frame (fun i => v (i + 1))

/-- Lines 97-113: output shaping for one frame. -/
def shape (value : Output) (output : List (List Sample)) (frame : Nat) :
    List (List Sample) :=
  match value with
  | .arr a =>
      if output.length ≤ a.length then writeAll output frame (fun ch => a.getD ch 0)
      else writeAll output frame (fun _ => a.getD 0 0)
  | .num x => writeAll output frame (fun _ => x)

/-- Result of one `process` call: final state, final output buffers, the
messages posted on the port during the call, the returned continue flag, and
the ghost log of implementation invocations tagged with their frame index. -/
structure BlockRes (γ κ : Type) where
  st : State γ κ
  output : List (List Sample)
  posted : List String
  cont : Bool
  log : List (Nat × CallEvent)

/-- Outcome of one iteration of the frame loop: the loop either hits the
`isDone` early return at this frame, or writes this frame into the output
buffers and continues. -/
inductive StepOut (γ κ : Type) where
  | done (s : State γ κ) (evl : List (Nat × CallEvent))
  | cont (s : State γ κ) (output : List (List Sample)) (evl : List (Nat × CallEvent))

/-- One iteration of the frame loop (lines 74-113): handle a pending stop
message at the frame boundary (`stopsAt`; the single-threaded host never
delivers one mid-block, i.e. uses `stopsAt = fun _ => false`), refresh the
changed parameters and the input snapshot, invoke `this.next(this.args)`,
destructure a generator-style result into `this.isDone`, then either take the
done early-return or shape this frame's value into the output buffers. -/
def frameStep (impl : Implementation γ κ) (pp : List (String × List Sample))
    (changed : List String) (input : List (List Sample)) (stopsAt : Nat → Bool)
    (s : State γ κ) (output : List (List Sample)) (frame : Nat) :
    Except WorkletError (StepOut γ κ) :=
  let s0 := if stopsAt frame then stop s else s
  let p' := updateChanged pp changed frame s0.params
  let buf' := updateInput s0.inputBuf input frame
  let a : FrameArgs := ⟨p', buf', s0.env⟩
  match callNext impl s0.resolved s0.cleanup a with
  | .error e => .error e
  | .ok (fo, r', cl', evs) =>
      let evl := evs.map (fun e => (frame, e))
      let vd : Output × Bool :=
        match fo with
        | .yld v d => (v, d)
        | .out v => (v, s0.isDone)
      let s' : State γ κ :=
        { s0 with resolved := r', cleanup := cl', isDone := vd.2,
                  params := p', inputBuf := buf' }
      if s'.isDone then .ok (.done s' evl)
      else .ok (.cont s' (shape vd.1 output frame) evl)

/-- The frame loop (lines 73-115), with fuel equal to the number of frames
remaining (`output[0].length` never changes during the loop, so the bound is
fixed). -/
def runFrames (impl : Implementation γ κ) (processOnly : Bool)
    (pp : List (String × List Sample)) (changed : List String)
    (input : List (List Sample)) (stopsAt : Nat → Bool) :
    Nat → State γ κ → List (List Sample) → Nat →
    Except WorkletError (BlockRes γ κ)
  | 0, s, output, _ => .ok ⟨s, output, [], !processOnly, []⟩
  | gas + 1, s, output, frame =>
      match frameStep impl pp changed input stopsAt s output frame with
      | .error e => .error e
      | .ok (.done s' evl) => .ok ⟨s', output, ["done"], false, evl⟩
      | .ok (.cont s' out' evl) =>
          match runFrames impl processOnly pp changed input stopsAt gas s'
              out' (frame + 1) with
          | .error e => .error e
          | .ok res => .ok ⟨res.st, res.output, res.posted, res.cont, evl ++ res.log⟩

/-- `process(inputs, outputs, parameters)` (lines 45-117).  `sr` is the
ambient `sampleRate` global at the time of the call. -/
def process (impl : Implementation γ κ) (processOnly : Bool) (s : State γ κ)
    (inputs outputs : List (List (List Sample)))
    (pp : List (String × List Sample)) (sr : Int) (stopsAt : Nat → Bool) :
    Except WorkletError (BlockRes γ κ) :=
  if s.isDone then .error .contractViolation
  else
    let input := inputs.getD 0 []
    let output := outputs.getD 0 []
    let snap := snapshotParams pp s.params
    let s' : State γ κ :=
      { s with params := snap.1, env := ⟨output.length, sr⟩ }
    runFrames impl processOnly pp snap.2 input stopsAt
      (output.getD 0 []).length s' output 0

/-- One interaction of the host with the adapter: a `process` call, or a
message delivered on the control channel. -/
inductive HostEvent where
  | block (inputs outputs : List (List (List Sample)))
      (pp : List (String × List Sample)) (sr : Int)
  | msg (data : String)

/-- Lifetime observation record: adapter state, all messages posted so far,
the full invocation log, and how many `process` calls have thrown. -/
structure World (γ κ : Type) where
  st : State γ κ
  posted : List String
  log : List (Nat × CallEvent)
  errs : Nat

def initWorld (γ κ : Type) (outputChannelCount : Nat) (sr : Int) : World γ κ :=
  ⟨initState γ κ outputChannelCount sr, [], [], 0⟩

/-- Single-threaded host semantics: events are handled one at a time; a
`process` call that throws propagates to the host (state, posted messages and
log unchanged; the error is counted). -/
def runEvents (impl : Implementation γ κ) (processOnly : Bool) :
    List HostEvent → World γ κ → World γ κ
  | [], w => w
  | .msg d :: rest, w =>
      runEvents impl processOnly rest { w with st := handleMessage w.st d }
  | .block ins outs pp sr :: rest, w =>
      match process impl processOnly w.st ins outs pp sr (fun _ => false) with
      | .error _ => runEvents impl processOnly rest { w with errs := w.errs + 1 }
      | .ok res =>
          runEvents impl processOnly rest
            ⟨res.st, w.posted ++ res.posted, w.log ++ res.log, w.errs⟩

def StepOut.evl : StepOut γ κ → List (Nat × CallEvent)
  | .done _ evl => evl
  | .cont _ _ evl => evl

def StepOut.st : StepOut γ κ → State γ κ
  | .done s _ => s
  | .cont s _ _ => s

/-- The state mutated by a possible boundary stop, which the frame body then
reads (`this` at the start of the loop iteration). -/
def preState (stopsAt : Nat → Bool) (s : State γ κ) (frame : Nat) : State γ κ :=
  if stopsAt frame then stop s else s

/-- The `FrameArgs` value built for this frame (contents of `this.args` at the
moment `this.next(this.args)` runs). -/
def frameArgsAt (pp : List (String × List Sample)) (changed : List String)
    (input : List (List Sample)) (stopsAt : Nat → Bool) (s : State γ κ)
    (frame : Nat) : FrameArgs :=
  ⟨updateChanged pp changed frame (preState stopsAt s frame).params,
   updateInput (preState stopsAt s frame).inputBuf input frame,
   (preState stopsAt s frame).env⟩

/-! ### Concrete instances used by witnesses and counterexamples -/

def junkArgs : FrameArgs := ⟨fun _ => 0, [], ⟨0, 0⟩⟩

/-- A pure implementation that always outputs the scalar 0. -/
def constImpl : Implementation Unit Unit := .pureFn (fun _ => .out (.num 0))

/-- A pure implementation that echoes its first input channel. -/
def echoImpl : Implementation Unit Unit := .pureFn (fun a => .out (.num (a.input.getD 0 0)))

/-- A generator implementation whose every resume yields `{value := v, done := d}`. -/
def genYieldImpl (v : Sample) (d : Bool) (hasRet : Bool) : Implementation Unit Unit :=
  .gen ⟨fun _ => (), fun _ _ => (.num v, d, ()), hasRet⟩

def c3gen : GenImpl Unit := ⟨fun _ => (), fun _ _ => (.num 9, false, ()), false⟩

/-- A class implementation counting its frames. -/
def c8impl : Implementation Unit Nat :=
  .cls ⟨fun _ => 0, some (fun st _ => (.out (.num 1), st + 1))⟩

def junkRes (γ κ : Type) : BlockRes γ κ := ⟨initState γ κ 0 0, [], [], true, []⟩

def okRes {γ κ : Type} (x : Except WorkletError (BlockRes γ κ)) : BlockRes γ κ :=
  match x with
  | .ok r => r
  | .error _ => junkRes γ κ

def c10res : BlockRes Unit Unit :=
  okRes (process (genYieldImpl 9 true false) false (initState Unit Unit 2 44100)
    [] [[[7, 7, 7]]] [] 44100 (fun _ => false))

def c3res : BlockRes Unit Unit :=
  okRes (process (.gen c3gen) false (initState Unit Unit 2 44100)
    [] [[[7, 7]]] [] 44100 (fun _ => false))

def c1res : BlockRes Unit Unit :=
  okRes (process echoImpl false (initState Unit Unit 2 44100)
    [] [[[0, 0]]] [("gain", [1, 2])] 44100 (fun _ => false))

def c1pair : Nat × CallEvent := c1res.log.getD 1 (0, CallEvent.ctorCall)

def c4res : BlockRes Unit Unit :=
  okRes (process echoImpl false (initState Unit Unit 2 44100)
    [[[5]]] [[[0]]] [] 44100 (fun _ => false))

def c4pair : Nat × CallEvent := c4res.log.getD 0 (0, CallEvent.ctorCall)

def c5res : BlockRes Unit Unit :=
  okRes (process (genYieldImpl 0 false true) false (initState Unit Unit 2 44100)
    [] [[[7, 7]]] [] 44100 (fun f => f == 1))

def c8res : BlockRes Unit Nat :=
  okRes (process c8impl false (initState Unit Nat 2 44100)
    [] [[[0, 0]]] [] 44100 (fun _ => false))

def c9state : State Unit Unit := { initState Unit Unit 2 44100 with cleanup := true }

def c9res : BlockRes Unit Unit :=
  okRes (process constImpl false c9state [] [[[0]]] [] 44100 (fun _ => false))

def c4w : World Unit Unit :=
  runEvents echoImpl false
    [.block [[[5]]] [[[0]]] [] 44100, .block [] [[[0]]] [] 44100]
    (initWorld Unit Unit 2 44100)

def c6w : World Unit Unit :=
  runEvents constImpl false
    [.msg "stop", .block [] [[[0]]] [] 44100]
    (initWorld Unit Unit 2 44100)

def c9w : World Unit Unit :=
  runEvents (genYieldImpl 9 false true) false
    [.block [] [[[0]]] [] 44100, .msg "stop", .msg "STOP"]
    (initWorld Unit Unit 2 44100)

/-! ### List helpers -/

theorem getD_of_length_le {α : Type} (l : List α) (i : Nat) (d : α)
    (h : l.length ≤ i) : l.getD i d = d := by
  induction l generalizing i with
  | nil => cases i <;> rfl
  | cons a t ih =>
      cases i with
      | zero => simp at h
      | succ j => simpa [List.getD] using ih j (by simpa using h)

theorem getD_set_ne {α : Type} (l : List α) (i j : Nat) (x : α) (d : α)
    (h : i ≠ j) : (l.set i x).getD j d = l.getD j d := by
  induction l generalizing i j with
  | nil => simp [List.set]
  | cons a t ih =>
      cases i with
      | zero =>
          cases j with
          | zero => exact absurd rfl h
          | succ j' => simp [List.set, List.getD]
      | succ i' =>
          cases j with
          | zero => simp [List.set, List.getD]
          | succ j' =>
              simp only [List.set, List.getD_cons_succ]
              exact ih i' j' (fun hh => h (by rw [hh]))

theorem getD_set_self {α : Type} (l : List α) (i : Nat) (x : α) (d : α)
    (h : i < l.length) : (l.set i x).getD i d = x := by
  induction l generalizing i with
  | nil => simp at h
  | cons a t ih =>
      cases i with
      | zero => rfl
      | succ i' =>
          simp only [List.set, List.getD_cons_succ]
          exact ih i' (by simpa using h)

theorem getD_mem {α : Type} (l : List α) (i : Nat) (d : α) (h : i < l.length) :
    l.getD i d ∈ l := by
  induction l generalizing i with
  | nil => simp at h
  | cons a t ih =>
      cases i with
      | zero => exact List.mem_cons_self _ _
      | succ j => exact List.mem_cons_of_mem _ (ih j (by simpa using h))

theorem length_setLength (l : List Sample) (n : Nat) :
    (setLength l n).length = n := by
  simp only [setLength, List.length_append, List.length_take, List.length_replicate]
  omega

theorem setLength_self (l : List Sample) (n : Nat) (h : l.length = n) :
    setLength l n = l := by
  subst h
  simp [setLength]

/-! ### `writeAll` and `shape` -/

theorem length_writeAll (o : List (List Sample)) (f : Nat) (v : Nat → Sample) :
    (writeAll o f v).length = o.length := by
  induction o generalizing v with
  | nil => rfl
  | cons c rest ih => simp [writeAll, ih]

theorem getD_writeAll_lt (o : List (List Sample)) (f : Nat) (v : Nat → Sample)
    (ch : Nat) (h : ch < o.length) :
    (writeAll o f v).getD ch [] = (o.getD ch []).set f (v ch) := by
  induction o generalizing v ch with
  | nil => simp at h
  | cons c rest ih =>
      cases ch with
      | zero => rfl
      | succ ch' =>
          simp only [writeAll, List.getD_cons_succ]
          exact ih (fun i => v (i + 1)) ch' (by simpa using h)

theorem getD_writeAll_ge (o : List (List Sample)) (f : Nat) (v : Nat → Sample)
    (ch : Nat) (h : o.length ≤ ch) : (writeAll o f v).getD ch [] = [] := by
  refine getD_of_length_le _ _ _ ?_
  rw [length_writeAll]
  exact h

theorem length_shape (value : Output) (o : List (List Sample)) (f : Nat) :
    (shape value o f).length = o.length := by
  cases value with
  | num x => simp [shape, length_writeAll]
  | arr a =>
      simp only [shape]
      split <;> simp [length_writeAll]

theorem shape_eq_writeAll (value : Output) (o : List (List Sample)) (f : Nat) :
    ∃ v : Nat → Sample, shape value o f = writeAll o f v := by
  cases value with
  | num x => exact ⟨fun _ => x, rfl⟩
  | arr a =>
      simp only [shape]
      split
      · exact ⟨fun ch => a.getD ch 0, rfl⟩
      · exact ⟨fun _ => a.getD 0 0, rfl⟩

theorem channel_length_shape (value : Output) (o : List (List Sample))
    (f ch : Nat) : ((shape value o f).getD ch []).length = (o.getD ch []).length := by
  obtain ⟨v, hv⟩ := shape_eq_writeAll value o f
  rw [hv]
  rcases Nat.lt_or_ge ch o.length with h | h
  · rw [getD_writeAll_lt _ _ _ _ h, List.length_set]
  · rw [getD_writeAll_ge _ _ _ _ h, getD_of_length_le _ _ _ h]

theorem getD_shape_ne (value : Output) (o : List (List Sample)) (f ch j : Nat)
    (h : j ≠ f) :
    ((shape value o f).getD ch []).getD j 0 = (o.getD ch []).getD j 0 := by
  obtain ⟨v, hv⟩ := shape_eq_writeAll value o f
  rw [hv]
  rcases Nat.lt_or_ge ch o.length with hch | hch
  · rw [getD_writeAll_lt _ _ _ _ hch]
    exact getD_set_ne _ _ _ _ _ (fun hh => h hh.symm)
  · rw [getD_writeAll_ge _ _ _ _ hch, getD_of_length_le _ _ _ hch]

theorem getD_shape_num (x : Sample) (o : List (List Sample)) (f ch : Nat)
    (hch : ch < o.length) (hf : f < (o.getD ch []).length) :
    ((shape (.num x) o f).getD ch []).getD f 0 = x := by
  simp only [shape]
  rw [getD_writeAll_lt _ _ _ _ hch]
  exact getD_set_self _ _ _ _ hf

theorem getD_shape_arr_wide (a : List Sample) (o : List (List Sample)) (f ch : Nat)
    (hlen : o.length ≤ a.length) (hch : ch < o.length)
    (hf : f < (o.getD ch []).length) :
    ((shape (.arr a) o f).getD ch []).getD f 0 = a.getD ch 0 := by
  simp only [shape, if_pos hlen]
  rw [getD_writeAll_lt _ _ _ _ hch]
  exact getD_set_self _ _ _ _ hf

theorem getD_shape_arr_narrow (a : List Sample) (o : List (List Sample)) (f ch : Nat)
    (hlen : a.length < o.length) (hch : ch < o.length)
    (hf : f < (o.getD ch []).length) :
    ((shape (.arr a) o f).getD ch []).getD f 0 = a.getD 0 0 := by
  simp only [shape, if_neg (Nat.not_le.mpr hlen)]
  rw [getD_writeAll_lt _ _ _ _ hch]
  exact getD_set_self _ _ _ _ hf

/-! ### `updateInput` -/

theorem updateInput_nil (buf : List Sample) (f : Nat) :
    updateInput buf [] f = buf := rfl

theorem updateInput_aux (L : Nat) (g : Nat → Sample) (buf : List Sample) :
    ∀ k, 1 ≤ k → k ≤ L →
      ((List.range k).foldl (fun acc ch => (setLength acc L).set ch (g ch)) buf).length = L ∧
      ∀ j, j < k →
        ((List.range k).foldl (fun acc ch => (setLength acc L).set ch (g ch)) buf).getD j 0 = g j := by
  intro k
  induction k with
  | zero => intro h; omega
  | succ k ih =>
      intro _ hkL
      rw [List.range_succ, List.foldl_append]
      simp only [List.foldl_cons, List.foldl_nil]
      rcases Nat.eq_zero_or_pos k with hk0 | hkpos
      · subst hk0
        simp only [List.range_zero, List.foldl_nil]
        constructor
        · rw [List.length_set, length_setLength]
        · intro j hj
          interval_cases j
          exact getD_set_self _ _ _ _ (by rw [length_setLength]; omega)
      · obtain ⟨hlen, hget⟩ := ih hkpos (by omega)
        rw [setLength_self _ _ hlen]
        constructor
        · rw [List.length_set, hlen]
        · intro j hj
          rcases Nat.lt_or_ge j k with hjk | hjk
          · rw [getD_set_ne _ _ _ _ _ (by omega)]
            exact hget j hjk
          · have hjeq : j = k := by omega
            subst hjeq
            exact getD_set_self _ _ _ _ (by rw [hlen]; omega)

theorem updateInput_length (buf : List Sample) (input : List (List Sample))
    (f : Nat) (h : 1 ≤ input.length) :
    (updateInput buf input f).length = input.length :=
  (updateInput_aux input.length (fun ch => (input.getD ch []).getD f 0) buf
    input.length h (Nat.le_refl _)).1

theorem updateInput_getD (buf : List Sample) (input : List (List Sample))
    (f ch : Nat) (h : ch < input.length) :
    (updateInput buf input f).getD ch 0 = (input.getD ch []).getD f 0 :=
  (updateInput_aux input.length (fun ch => (input.getD ch []).getD f 0) buf
    input.length (by omega) (Nat.le_refl _)).2 ch h

/-! ### `lookupKey`, `snapshotParams`, `updateChanged` -/

theorem mem_of_lookupKey {k : String} {v : List Sample}
    {pp : List (String × List Sample)} (h : lookupKey k pp = some v) :
    (k, v) ∈ pp := by
  induction pp with
  | nil => simp [lookupKey] at h
  | cons kv rest ih =>
      by_cases hk : kv.1 = k
      · simp only [lookupKey, if_pos hk] at h
        cases h
        subst hk
        rw [Prod.mk.eta]
        exact List.mem_cons_self _ _
      · simp only [lookupKey, if_neg hk] at h
        exact List.mem_cons_of_mem _ (ih h)

theorem lookupKey_eq_some_of_mem {k : String} {v : List Sample}
    {pp : List (String × List Sample)} (hnd : (pp.map Prod.fst).Nodup)
    (h : (k, v) ∈ pp) : lookupKey k pp = some v := by
  induction pp with
  | nil => simp at h
  | cons kv rest ih =>
      rw [List.map_cons, List.nodup_cons] at hnd
      rcases List.mem_cons.mp h with heq | hmem
      · subst heq
        simp [lookupKey]
      · have hk : kv.1 ≠ k := by
          intro hc
          exact hnd.1 (hc ▸ List.mem_map_of_mem Prod.fst hmem)
        simp only [lookupKey, if_neg hk]
        exact ih hnd.2 hmem

theorem fst_mem_of_lookupKey_isSome {k : String}
    {pp : List (String × List Sample)} (h : (lookupKey k pp).isSome) :
    k ∈ pp.map Prod.fst := by
  cases hv : lookupKey k pp with
  | none => rw [hv] at h; simp at h
  | some v => exact List.mem_map_of_mem Prod.fst (mem_of_lookupKey hv)

theorem snapshotParams_fst_notkey (pp : List (String × List Sample))
    (p : String → Sample) (k : String) (h : k ∉ pp.map Prod.fst) :
    (snapshotParams pp p).1 k = p k := by
  induction pp generalizing p with
  | nil => rfl
  | cons kv rest ih =>
      rw [List.map_cons] at h
      have h1 : kv.1 ≠ k := fun hc => h (hc ▸ List.mem_cons_self _ _)
      have h2 : k ∉ rest.map Prod.fst := fun hc => h (List.mem_cons_of_mem _ hc)
      simp only [snapshotParams]
      rw [ih _ h2]
      exact Function.update_noteq (fun hc => h1 hc.symm) _ _

theorem snapshotParams_fst (pp : List (String × List Sample))
    (p : String → Sample) (k : String) (arr : List Sample)
    (hnd : (pp.map Prod.fst).Nodup) (h : lookupKey k pp = some arr) :
    (snapshotParams pp p).1 k = arr.getD 0 0 := by
  induction pp generalizing p with
  | nil => simp [lookupKey] at h
  | cons kv rest ih =>
      rw [List.map_cons, List.nodup_cons] at hnd
      by_cases hk : kv.1 = k
      · simp only [lookupKey, if_pos hk] at h
        cases h
        simp only [snapshotParams]
        rw [snapshotParams_fst_notkey _ _ _ (hk ▸ hnd.1)]
        rw [hk]
        exact Function.update_same _ _ _
      · simp only [lookupKey, if_neg hk] at h
        simp only [snapshotParams]
        exact ih _ hnd.2 h

theorem snapshotParams_snd_subset (pp : List (String × List Sample))
    (p : String → Sample) (k : String) (h : k ∈ (snapshotParams pp p).2) :
    k ∈ pp.map Prod.fst := by
  induction pp generalizing p with
  | nil => simp [snapshotParams] at h
  | cons kv rest ih =>
      simp only [snapshotParams, List.mem_append] at h
      rw [List.map_cons]
      rcases h with h | h
      · split at h
        · rcases List.mem_singleton.mp h with h
          exact h ▸ List.mem_cons_self _ _
        · simp at h
      · exact List.mem_cons_of_mem _ (ih _ h)

theorem mem_snapshotParams_snd_iff (pp : List (String × List Sample))
    (p : String → Sample) (k : String) (hnd : (pp.map Prod.fst).Nodup) :
    k ∈ (snapshotParams pp p).2 ↔
      ∃ arr, lookupKey k pp = some arr ∧ arr.length ≠ 1 := by
  induction pp generalizing p with
  | nil => simp [snapshotParams, lookupKey]
  | cons kv rest ih =>
      rw [List.map_cons, List.nodup_cons] at hnd
      simp only [snapshotParams, List.mem_append]
      by_cases hk : kv.1 = k
      · have hnr : k ∉ (snapshotParams rest
            (Function.update p kv.1 (kv.2.getD 0 0))).2 :=
          fun hc => hnd.1 (hk ▸ snapshotParams_snd_subset _ _ _ hc)
        simp only [lookupKey, if_pos hk]
        constructor
        · rintro (h | h)
          · split at h
            · exact ⟨kv.2, rfl, by assumption⟩
            · simp at h
          · exact absurd h hnr
        · rintro ⟨arr, harr, hlen⟩
          cases harr
          left
          rw [if_pos hlen]
          exact List.mem_singleton.mpr hk.symm
      · simp only [lookupKey, if_neg hk]
        rw [← ih _ hnd.2]
        constructor
        · rintro (h | h)
          · split at h
            · exact absurd (List.mem_singleton.mp h).symm hk
            · simp at h
          · exact h
        · intro h
          right
          exact h

theorem snapshotParams_snd_nodup (pp : List (String × List Sample))
    (p : String → Sample) (hnd : (pp.map Prod.fst).Nodup) :
    (snapshotParams pp p).2.Nodup := by
  induction pp generalizing p with
  | nil => simp [snapshotParams]
  | cons kv rest ih =>
      rw [List.map_cons, List.nodup_cons] at hnd
      simp only [snapshotParams]
      split
      · rw [List.singleton_append, List.nodup_cons]
        constructor
        · intro hc
          exact hnd.1 (snapshotParams_snd_subset _ _ _ hc)
        · exact ih _ hnd.2
      · rw [List.nil_append]
        exact ih _ hnd.2

theorem updateChanged_not_mem (pp : List (String × List Sample))
    (changed : List String) (f : Nat) (p : String → Sample) (k : String)
    (h : k ∉ changed) : updateChanged pp changed f p k = p k := by
  induction changed generalizing p with
  | nil => rfl
  | cons key rest ih =>
      have h1 : key ≠ k := fun hc => h (hc ▸ List.mem_cons_self _ _)
      have h2 : k ∉ rest := fun hc => h (List.mem_cons_of_mem _ hc)
      simp only [updateChanged]
      rw [ih _ h2]
      exact Function.update_noteq (fun hc => h1 hc.symm) _ _

theorem updateChanged_mem (pp : List (String × List Sample))
    (changed : List String) (f : Nat) (p : String → Sample) (k : String)
    (hnd : changed.Nodup) (h : k ∈ changed) :
    updateChanged pp changed f p k = ((lookupKey k pp).getD []).getD f 0 := by
  induction changed generalizing p with
  | nil => simp at h
  | cons key rest ih =>
      rw [List.nodup_cons] at hnd
      by_cases hk : key = k
      · subst hk
        simp only [updateChanged]
        rw [updateChanged_not_mem _ _ _ _ _ hnd.1]
        exact Function.update_same _ _ _
      · simp only [updateChanged]
        exact ih _ hnd.2 ((List.mem_cons.mp h).resolve_left (fun hc => hk hc.symm))

/-! ### `frameStep` lemmas -/

theorem preState_resolved (stopsAt : Nat → Bool) (s : State γ κ) (frame : Nat) :
    (preState stopsAt s frame).resolved = s.resolved := by
  unfold preState
  split <;> rfl

theorem preState_params (stopsAt : Nat → Bool) (s : State γ κ) (frame : Nat) :
    (preState stopsAt s frame).params = s.params := by
  unfold preState
  split <;> rfl

theorem preState_cleanupRuns_of_not (stopsAt : Nat → Bool) (s : State γ κ)
    (frame : Nat) (h : stopsAt frame = false) :
    (preState stopsAt s frame).cleanupRuns = s.cleanupRuns := by
  unfold preState
  rw [h]
  simp

theorem frameStep_elim {impl : Implementation γ κ} {pp changed input stopsAt s output frame so}
    (h : frameStep impl pp changed input stopsAt s output frame = .ok so) :
    ∃ fo r' cl' evs,
      callNext impl (preState stopsAt s frame).resolved
          (preState stopsAt s frame).cleanup
          (frameArgsAt pp changed input stopsAt s frame) = .ok (fo, r', cl', evs) ∧
      so.evl = evs.map (fun e => (frame, e)) ∧
      so.st.resolved = r' ∧
      so.st.params = updateChanged pp changed frame (preState stopsAt s frame).params ∧
      so.st.cleanupRuns = (preState stopsAt s frame).cleanupRuns ∧
      (∀ s' evl, so = .done s' evl → s'.isDone = true) ∧
      (∀ s' out' evl, so = .cont s' out' evl →
        s'.isDone = false ∧ ∃ v, out' = shape v output frame) := by
  unfold frameStep at h
  rw [show (if stopsAt frame then stop s else s) = preState stopsAt s frame from rfl] at h
  dsimp only at h
  cases hc : callNext impl (preState stopsAt s frame).resolved
      (preState stopsAt s frame).cleanup
      ⟨updateChanged pp changed frame (preState stopsAt s frame).params,
       updateInput (preState stopsAt s frame).inputBuf input frame,
       (preState stopsAt s frame).env⟩ with
  | error e =>
      rw [hc] at h
      cases h
  | ok r =>
      rw [hc] at h
      obtain ⟨fo, r', cl', evs⟩ := r
      dsimp only at h
      refine ⟨fo, r', cl', evs, hc, ?_⟩
      split at h
      · cases h
        refine ⟨rfl, rfl, rfl, rfl, ?_, ?_⟩
        · intro s' evl he
          cases he
          assumption
        · intro s' out' evl he
          cases he
      · cases h
        refine ⟨rfl, rfl, rfl, rfl, ?_, ?_⟩
        · intro s' evl he
          cases he
        · intro s' out' evl he
          cases he
          rename_i hcond
          rw [Bool.not_eq_true] at hcond
          exact ⟨hcond, ⟨_, rfl⟩⟩

theorem callNext_resolved_ne {impl : Implementation γ κ} {r : Resolved γ κ}
    {cl : Bool} {a : FrameArgs} {fo r' cl' evs}
    (h : callNext impl r cl a = .ok (fo, r', cl', evs)) : r' ≠ .unresolved := by
  cases r with
  | unresolved =>
      cases impl with
      | gen g => cases h; simp
      | pureFn f => cases h; simp
      | cls c =>
          cases hn : c.instNext with
          | none => simp [callNext, first, hn] at h
          | some nf => rw [callNext, first, hn] at h; cases h; simp
  | genIter res s => cases h; simp
  | clsInst nf s => cases h; simp
  | pureF f => cases h; simp

theorem callNext_args {impl : Implementation γ κ} {r : Resolved γ κ}
    {cl : Bool} {a : FrameArgs} {fo r' cl' evs}
    (h : callNext impl r cl a = .ok (fo, r', cl', evs)) :
    ∀ e ∈ evs, ∀ a', e.args = some a' → a' = a := by
  cases r with
  | unresolved =>
      cases impl with
      | gen g => cases h; simp [CallEvent.args]
      | pureFn f => cases h; simp [CallEvent.args]
      | cls c =>
          cases hn : c.instNext with
          | none => simp [callNext, first, hn] at h
          | some nf =>
              rw [callNext, first, hn] at h
              cases h
              intro e he a' ha'
              simp only [List.mem_cons, List.not_mem_nil, or_false] at he
              rcases he with rfl | rfl
              · simp [CallEvent.args] at ha'
              · rw [CallEvent.args] at ha'
                exact (Option.some.inj ha').symm
  | genIter res s => cases h; simp [CallEvent.args]
  | clsInst nf s => cases h; simp [CallEvent.args]
  | pureF f => cases h; simp [CallEvent.args]

theorem callNext_no_ctor {impl : Implementation γ κ} {r : Resolved γ κ}
    {cl : Bool} {a : FrameArgs} {fo r' cl' evs}
    (h : callNext impl r cl a = .ok (fo, r', cl', evs))
    (hr : r ≠ .unresolved) : ∀ e ∈ evs, e.isCtorCall = false := by
  cases r with
  | unresolved => exact absurd rfl hr
  | genIter res s => cases h; simp [CallEvent.isCtorCall]
  | clsInst nf s => cases h; simp [CallEvent.isCtorCall]
  | pureF f => cases h; simp [CallEvent.isCtorCall]

theorem callNext_evs_ne_nil {impl : Implementation γ κ} {r : Resolved γ κ}
    {cl : Bool} {a : FrameArgs} {fo r' cl' evs}
    (h : callNext impl r cl a = .ok (fo, r', cl', evs)) : evs ≠ [] := by
  cases r with
  | unresolved =>
      cases impl with
      | gen g => cases h; simp
      | pureFn f => cases h; simp
      | cls c =>
          cases hn : c.instNext with
          | none => simp [callNext, first, hn] at h
          | some nf => rw [callNext, first, hn] at h; cases h; simp
  | genIter res s => cases h; simp
  | clsInst nf s => cases h; simp
  | pureF f => cases h; simp

theorem callNext_ok {impl : Implementation γ κ} (r : Resolved γ κ)
    (cl : Bool) (a : FrameArgs)
    (h : ∀ c, impl = .cls c → c.instNext.isSome) :
    ∃ x, callNext impl r cl a = .ok x := by
  cases r with
  | unresolved =>
      cases impl with
      | gen g => exact ⟨_, rfl⟩
      | pureFn f => exact ⟨_, rfl⟩
      | cls c =>
          cases hn : c.instNext with
          | none =>
              have hh := h c rfl
              rw [hn] at hh
              simp at hh
          | some nf => exact ⟨_, by rw [callNext, first, hn]⟩
  | genIter res s => exact ⟨_, rfl⟩
  | clsInst nf s => exact ⟨_, rfl⟩
  | pureF f => exact ⟨_, rfl⟩

/-! ### `runFrames` lemmas -/

theorem runFrames_log_bounds {impl : Implementation γ κ} {po pp changed input stopsAt} :
    ∀ {gas : Nat} {s : State γ κ} {output frame res},
      runFrames impl po pp changed input stopsAt gas s output frame = .ok res →
      ∀ q ∈ res.log, frame ≤ q.1 ∧ q.1 < frame + gas := by
  intro gas
  induction gas with
  | zero =>
      intro s output frame res h q hq
      cases h
      simp at hq
  | succ n ih =>
      intro s output frame res h q hq
      rw [runFrames] at h
      cases hf : frameStep impl pp changed input stopsAt s output frame with
      | error e => rw [hf] at h; cases h
      | ok so =>
          rw [hf] at h
          obtain ⟨fo, r', cl', evs, hc, hevl, _, _, _, _, _⟩ := frameStep_elim hf
          cases so with
          | done s' evl =>
              cases h
              simp only [StepOut.evl] at hevl
              subst hevl
              obtain ⟨e, he, rfl⟩ := List.mem_map.mp hq
              exact ⟨Nat.le_refl _, by omega⟩
          | cont s' out' evl =>
              dsimp only at h
              cases hr : runFrames impl po pp changed input stopsAt n s' out' (frame + 1) with
              | error e => rw [hr] at h; cases h
              | ok res' =>
                  rw [hr] at h
                  cases h
                  simp only [StepOut.evl] at hevl
                  subst hevl
                  rcases List.mem_append.mp hq with hq | hq
                  · obtain ⟨e, he, rfl⟩ := List.mem_map.mp hq
                    exact ⟨Nat.le_refl _, by omega⟩
                  · obtain ⟨h1, h2⟩ := ih hr q hq
                    exact ⟨by omega, by omega⟩

theorem runFrames_locality {impl : Implementation γ κ} {po pp changed input stopsAt} :
    ∀ {gas : Nat} {s : State γ κ} {output frame res},
      runFrames impl po pp changed input stopsAt gas s output frame = .ok res →
      ∀ ch j, j < frame →
        (res.output.getD ch []).getD j 0 = (output.getD ch []).getD j 0 := by
  intro gas
  induction gas with
  | zero =>
      intro s output frame res h ch j hj
      cases h
      rfl
  | succ n ih =>
      intro s output frame res h ch j hj
      rw [runFrames] at h
      cases hf : frameStep impl pp changed input stopsAt s output frame with
      | error e => rw [hf] at h; cases h
      | ok so =>
          rw [hf] at h
          obtain ⟨fo, r', cl', evs, hc, hevl, _, _, _, _, hcont⟩ := frameStep_elim hf
          cases so with
          | done s' evl =>
              cases h
              rfl
          | cont s' out' evl =>
              dsimp only at h
              cases hr : runFrames impl po pp changed input stopsAt n s' out' (frame + 1) with
              | error e => rw [hr] at h; cases h
              | ok res' =>
                  rw [hr] at h
                  cases h
                  obtain ⟨_, v, hv⟩ := hcont s' out' evl rfl
                  rw [ih hr ch j (by omega), hv,
                    getD_shape_ne v output frame ch j (by omega)]

theorem runFrames_posted {impl : Implementation γ κ} {po pp changed input stopsAt} :
    ∀ {gas : Nat} {s : State γ κ} {output frame res},
      runFrames impl po pp changed input stopsAt gas s output frame = .ok res →
      res.posted = [] ∨ (res.posted = ["done"] ∧ res.st.isDone = true) := by
  intro gas
  induction gas with
  | zero =>
      intro s output frame res h
      cases h
      exact Or.inl rfl
  | succ n ih =>
      intro s output frame res h
      rw [runFrames] at h
      cases hf : frameStep impl pp changed input stopsAt s output frame with
      | error e => rw [hf] at h; cases h
      | ok so =>
          rw [hf] at h
          obtain ⟨fo, r', cl', evs, hc, hevl, _, _, _, hdone, _⟩ := frameStep_elim hf
          cases so with
          | done s' evl =>
              cases h
              exact Or.inr ⟨rfl, hdone s' evl rfl⟩
          | cont s' out' evl =>
              dsimp only at h
              cases hr : runFrames impl po pp changed input stopsAt n s' out' (frame + 1) with
              | error e => rw [hr] at h; cases h
              | ok res' =>
                  rw [hr] at h
                  cases h
                  have hres := ih hr
                  exact hres

theorem runFrames_cleanupRuns {impl : Implementation γ κ} {po pp changed input stopsAt}
    (hst : ∀ f, stopsAt f = false) :
    ∀ {gas : Nat} {s : State γ κ} {output frame res},
      runFrames impl po pp changed input stopsAt gas s output frame = .ok res →
      res.st.cleanupRuns = s.cleanupRuns := by
  intro gas
  induction gas with
  | zero =>
      intro s output frame res h
      cases h
      rfl
  | succ n ih =>
      intro s output frame res h
      rw [runFrames] at h
      cases hf : frameStep impl pp changed input stopsAt s output frame with
      | error e => rw [hf] at h; cases h
      | ok so =>
          rw [hf] at h
          obtain ⟨fo, r', cl', evs, hc, hevl, _, _, hcr, _, _⟩ := frameStep_elim hf
          rw [preState_cleanupRuns_of_not _ _ _ (hst frame)] at hcr
          cases so with
          | done s' evl =>
              cases h
              exact hcr
          | cont s' out' evl =>
              dsimp only at h
              cases hr : runFrames impl po pp changed input stopsAt n s' out' (frame + 1) with
              | error e => rw [hr] at h; cases h
              | ok res' =>
                  rw [hr] at h
                  cases h
                  rw [ih hr]
                  exact hcr

theorem runFrames_resolved_ne {impl : Implementation γ κ} {po pp changed input stopsAt} :
    ∀ {gas : Nat} {s : State γ κ} {output frame res},
      runFrames impl po pp changed input stopsAt gas s output frame = .ok res →
      res.st.resolved = s.resolved ∨ res.st.resolved ≠ .unresolved := by
  intro gas
  induction gas with
  | zero =>
      intro s output frame res h
      cases h
      exact Or.inl rfl
  | succ n ih =>
      intro s output frame res h
      rw [runFrames] at h
      cases hf : frameStep impl pp changed input stopsAt s output frame with
      | error e => rw [hf] at h; cases h
      | ok so =>
          rw [hf] at h
          obtain ⟨fo, r', cl', evs, hc, hevl, hres, _, _, _, _⟩ := frameStep_elim hf
          have hne : so.st.resolved ≠ .unresolved := hres ▸ callNext_resolved_ne hc
          cases so with
          | done s' evl =>
              cases h
              exact Or.inr hne
          | cont s' out' evl =>
              dsimp only at h
              cases hr : runFrames impl po pp changed input stopsAt n s' out' (frame + 1) with
              | error e => rw [hr] at h; cases h
              | ok res' =>
                  rw [hr] at h
                  cases h
                  rcases ih hr with heq | hne'
                  · exact Or.inr (heq ▸ hne)
                  · exact Or.inr hne'

theorem runFrames_no_ctor {impl : Implementation γ κ} {po pp changed input stopsAt} :
    ∀ {gas : Nat} {s : State γ κ} {output frame res},
      runFrames impl po pp changed input stopsAt gas s output frame = .ok res →
      s.resolved ≠ .unresolved →
      ∀ q ∈ res.log, q.2.isCtorCall = false := by
  intro gas
  induction gas with
  | zero =>
      intro s output frame res h _ q hq
      cases h
      simp at hq
  | succ n ih =>
      intro s output frame res h hsr q hq
      rw [runFrames] at h
      cases hf : frameStep impl pp changed input stopsAt s output frame with
      | error e => rw [hf] at h; cases h
      | ok so =>
          rw [hf] at h
          obtain ⟨fo, r', cl', evs, hc, hevl, hres, _, _, _, _⟩ := frameStep_elim hf
          rw [preState_resolved] at hc
          have hevs : ∀ e ∈ evs, e.isCtorCall = false := callNext_no_ctor hc hsr
          have hne : so.st.resolved ≠ .unresolved := hres ▸ callNext_resolved_ne hc
          cases so with
          | done s' evl =>
              cases h
              simp only [StepOut.evl] at hevl
              subst hevl
              obtain ⟨e, he, rfl⟩ := List.mem_map.mp hq
              exact hevs e he
          | cont s' out' evl =>
              dsimp only at h
              cases hr : runFrames impl po pp changed input stopsAt n s' out' (frame + 1) with
              | error e => rw [hr] at h; cases h
              | ok res' =>
                  rw [hr] at h
                  cases h
                  simp only [StepOut.evl] at hevl
                  subst hevl
                  rcases List.mem_append.mp hq with hq | hq
                  · obtain ⟨e, he, rfl⟩ := List.mem_map.mp hq
                    exact hevs e he
                  · exact ih hr hne q hq

theorem frameStep_ok {impl : Implementation γ κ} {pp changed input stopsAt}
    {s : State γ κ} {output frame}
    (h : ∀ c, impl = .cls c → c.instNext.isSome) :
    ∃ so, frameStep impl pp changed input stopsAt s output frame = .ok so := by
  unfold frameStep
  rw [show (if stopsAt frame then stop s else s) = preState stopsAt s frame from rfl]
  dsimp only
  obtain ⟨x, hx⟩ := @callNext_ok γ κ impl (preState stopsAt s frame).resolved
      (preState stopsAt s frame).cleanup
      ⟨updateChanged pp changed frame (preState stopsAt s frame).params,
       updateInput (preState stopsAt s frame).inputBuf input frame,
       (preState stopsAt s frame).env⟩ h
  rw [hx]
  obtain ⟨fo, r', cl', evs⟩ := x
  dsimp only
  split
  · exact ⟨_, rfl⟩
  · exact ⟨_, rfl⟩

theorem runFrames_ok {impl : Implementation γ κ} {po pp changed input stopsAt}
    (h : ∀ c, impl = .cls c → c.instNext.isSome) :
    ∀ {gas : Nat} {s : State γ κ} {output frame},
      ∃ res, runFrames impl po pp changed input stopsAt gas s output frame = .ok res := by
  intro gas
  induction gas with
  | zero => intro s output frame; exact ⟨_, rfl⟩
  | succ n ih =>
      intro s output frame
      obtain ⟨so, hso⟩ := @frameStep_ok γ κ impl pp changed input stopsAt
        s output frame h
      cases so with
      | done s' evl => exact ⟨_, by rw [runFrames, hso]⟩
      | cont s' out' evl =>
          obtain ⟨res', hr⟩ := @ih s' out' (frame + 1)
          exact ⟨_, by rw [runFrames, hso]; dsimp only; rw [hr]⟩

theorem runFrames_earlydone {impl : Implementation γ κ} {pp changed input stopsAt} :
    ∀ {gas : Nat} {s : State γ κ} {output frame res},
      runFrames impl false pp changed input stopsAt gas s output frame = .ok res →
      res.cont = false →
      ∃ j, frame ≤ j ∧ (∃ e, (j, e) ∈ res.log) ∧ res.posted = ["done"] ∧
        ∀ ch i, (i < frame ∨ j ≤ i) →
          (res.output.getD ch []).getD i 0 = (output.getD ch []).getD i 0 := by
  intro gas
  induction gas with
  | zero =>
      intro s output frame res h hcont
      cases h
      simp at hcont
  | succ n ih =>
      intro s output frame res h hcont
      rw [runFrames] at h
      cases hf : frameStep impl pp changed input stopsAt s output frame with
      | error e => rw [hf] at h; cases h
      | ok so =>
          rw [hf] at h
          obtain ⟨fo, r', cl', evs, hc, hevl, _, _, _, _, hcontc⟩ := frameStep_elim hf
          cases so with
          | done s' evl =>
              cases h
              refine ⟨frame, Nat.le_refl _, ?_, rfl, ?_⟩
              · simp only [StepOut.evl] at hevl
                cases evs with
                | nil => exact absurd rfl (callNext_evs_ne_nil hc)
                | cons e rest =>
                    refine ⟨e, ?_⟩
                    rw [hevl]
                    exact List.mem_cons_self _ _
              · intro ch i _
                rfl
          | cont s' out' evl =>
              dsimp only at h
              cases hr : runFrames impl false pp changed input stopsAt n s' out' (frame + 1) with
              | error e => rw [hr] at h; cases h
              | ok res' =>
                  rw [hr] at h
                  cases h
                  obtain ⟨j, hj1, ⟨e, hje⟩, hp, hout⟩ := ih hr hcont
                  obtain ⟨_, v, hv⟩ := hcontc s' out' evl rfl
                  refine ⟨j, by omega, ⟨e, ?_⟩, hp, ?_⟩
                  · simp only [StepOut.evl] at hevl
                    subst hevl
                    exact List.mem_append_right _ hje
                  · intro ch i hi
                    have hi' : i < frame + 1 ∨ j ≤ i := by omega
                    rw [hout ch i hi', hv,
                      getD_shape_ne v output frame ch i (by omega)]

theorem runFrames_params {impl : Implementation γ κ} {po pp changed input stopsAt}
    (hnd : changed.Nodup) :
    ∀ {gas : Nat} {s : State γ κ} {output frame res},
      runFrames impl po pp changed input stopsAt gas s output frame = .ok res →
      (∀ k arr, lookupKey k pp = some arr → k ∉ changed → s.params k = arr.getD 0 0) →
      ∀ q ∈ res.log, ∀ a, q.2.args = some a → ∀ k arr,
        lookupKey k pp = some arr →
        a.parameters k = if k ∈ changed then arr.getD q.1 0 else arr.getD 0 0 := by
  intro gas
  induction gas with
  | zero =>
      intro s output frame res h _ q hq
      cases h
      simp at hq
  | succ n ih =>
      intro s output frame res h hinv q hq
      rw [runFrames] at h
      cases hf : frameStep impl pp changed input stopsAt s output frame with
      | error e => rw [hf] at h; cases h
      | ok so =>
          rw [hf] at h
          obtain ⟨fo, r', cl', evs, hc, hevl, _, hparams, _, _, _⟩ := frameStep_elim hf
          rw [preState_params] at hparams
          have hframe : ∀ e ∈ evs, ∀ a, e.args = some a → ∀ k arr,
              lookupKey k pp = some arr →
              a.parameters k = if k ∈ changed then arr.getD frame 0 else arr.getD 0 0 := by
            intro e he a ha k arr harr
            have haeq := callNext_args hc e he a ha
            subst haeq
            unfold frameArgsAt
            rw [preState_params]
            dsimp only
            by_cases hm : k ∈ changed
            · rw [if_pos hm, updateChanged_mem pp changed frame s.params k hnd hm, harr]
              rfl
            · rw [if_neg hm, updateChanged_not_mem pp changed frame s.params k hm]
              exact hinv k arr harr hm
          have hinv' : ∀ k arr, lookupKey k pp = some arr → k ∉ changed →
              so.st.params k = arr.getD 0 0 := by
            intro k arr harr hm
            rw [hparams, updateChanged_not_mem pp changed frame s.params k hm]
            exact hinv k arr harr hm
          cases so with
          | done s' evl =>
              cases h
              simp only [StepOut.evl] at hevl
              subst hevl
              obtain ⟨e, he, rfl⟩ := List.mem_map.mp hq
              exact hframe e he
          | cont s' out' evl =>
              dsimp only at h
              cases hr : runFrames impl po pp changed input stopsAt n s' out' (frame + 1) with
              | error e => rw [hr] at h; cases h
              | ok res' =>
                  rw [hr] at h
                  cases h
                  simp only [StepOut.evl] at hevl
                  subst hevl
                  rcases List.mem_append.mp hq with hq | hq
                  · obtain ⟨e, he, rfl⟩ := List.mem_map.mp hq
                    exact hframe e he
                  · exact ih hr (by exact hinv') q hq

theorem preState_inputBuf (stopsAt : Nat → Bool) (s : State γ κ) (frame : Nat) :
    (preState stopsAt s frame).inputBuf = s.inputBuf := by
  unfold preState
  split <;> rfl

theorem frameStep_inputBuf {impl : Implementation γ κ} {pp changed input stopsAt s output frame so}
    (h : frameStep impl pp changed input stopsAt s output frame = .ok so) :
    so.st.inputBuf = updateInput (preState stopsAt s frame).inputBuf input frame := by
  unfold frameStep at h
  rw [show (if stopsAt frame then stop s else s) = preState stopsAt s frame from rfl] at h
  dsimp only at h
  cases hc : callNext impl (preState stopsAt s frame).resolved
      (preState stopsAt s frame).cleanup
      ⟨updateChanged pp changed frame (preState stopsAt s frame).params,
       updateInput (preState stopsAt s frame).inputBuf input frame,
       (preState stopsAt s frame).env⟩ with
  | error e => rw [hc] at h; cases h
  | ok r =>
      rw [hc] at h
      obtain ⟨fo, r', cl', evs⟩ := r
      dsimp only at h
      split at h <;> (cases h; rfl)

theorem runFrames_input {impl : Implementation γ κ} {po pp changed input stopsAt}
    (hL : 1 ≤ input.length) :
    ∀ {gas : Nat} {s : State γ κ} {output frame res},
      runFrames impl po pp changed input stopsAt gas s output frame = .ok res →
      ∀ q ∈ res.log, ∀ a, q.2.args = some a →
        a.input.length = input.length ∧
        ∀ ch, ch < input.length →
          a.input.getD ch 0 = (input.getD ch []).getD q.1 0 := by
  intro gas
  induction gas with
  | zero =>
      intro s output frame res h q hq
      cases h
      simp at hq
  | succ n ih =>
      intro s output frame res h q hq
      rw [runFrames] at h
      cases hf : frameStep impl pp changed input stopsAt s output frame with
      | error e => rw [hf] at h; cases h
      | ok so =>
          rw [hf] at h
          obtain ⟨fo, r', cl', evs, hc, hevl, _, _, _, _, _⟩ := frameStep_elim hf
          have hframe : ∀ e ∈ evs, ∀ a, e.args = some a →
              a.input.length = input.length ∧
              ∀ ch, ch < input.length →
                a.input.getD ch 0 = (input.getD ch []).getD frame 0 := by
            intro e he a ha
            have haeq := callNext_args hc e he a ha
            subst haeq
            unfold frameArgsAt
            dsimp only
            exact ⟨updateInput_length _ _ _ hL, fun ch hch => updateInput_getD _ _ _ ch hch⟩
          cases so with
          | done s' evl =>
              cases h
              simp only [StepOut.evl] at hevl
              subst hevl
              obtain ⟨e, he, rfl⟩ := List.mem_map.mp hq
              exact hframe e he
          | cont s' out' evl =>
              dsimp only at h
              cases hr : runFrames impl po pp changed input stopsAt n s' out' (frame + 1) with
              | error e => rw [hr] at h; cases h
              | ok res' =>
                  rw [hr] at h
                  cases h
                  simp only [StepOut.evl] at hevl
                  subst hevl
                  rcases List.mem_append.mp hq with hq | hq
                  · obtain ⟨e, he, rfl⟩ := List.mem_map.mp hq
                    exact hframe e he
                  · exact ih hr q hq

theorem runFrames_input_nil {impl : Implementation γ κ} {po pp changed stopsAt} :
    ∀ {gas : Nat} {s : State γ κ} {output frame res},
      runFrames impl po pp changed [] stopsAt gas s output frame = .ok res →
      (∀ q ∈ res.log, ∀ a, q.2.args = some a → a.input = s.inputBuf) ∧
      res.st.inputBuf = s.inputBuf := by
  intro gas
  induction gas with
  | zero =>
      intro s output frame res h
      cases h
      exact ⟨fun q hq => by simp at hq, rfl⟩
  | succ n ih =>
      intro s output frame res h
      rw [runFrames] at h
      cases hf : frameStep impl pp changed [] stopsAt s output frame with
      | error e => rw [hf] at h; cases h
      | ok so =>
          rw [hf] at h
          obtain ⟨fo, r', cl', evs, hc, hevl, _, _, _, _, _⟩ := frameStep_elim hf
          have hbuf : so.st.inputBuf = s.inputBuf := by
            rw [frameStep_inputBuf hf, updateInput_nil, preState_inputBuf]
          have hframe : ∀ e ∈ evs, ∀ a, e.args = some a → a.input = s.inputBuf := by
            intro e he a ha
            have haeq := callNext_args hc e he a ha
            subst haeq
            unfold frameArgsAt
            dsimp only
            rw [updateInput_nil, preState_inputBuf]
          cases so with
          | done s' evl =>
              cases h
              refine ⟨?_, hbuf⟩
              simp only [StepOut.evl] at hevl
              subst hevl
              intro q hq
              obtain ⟨e, he, rfl⟩ := List.mem_map.mp hq
              exact hframe e he
          | cont s' out' evl =>
              dsimp only at h
              cases hr : runFrames impl po pp changed [] stopsAt n s' out' (frame + 1) with
              | error e => rw [hr] at h; cases h
              | ok res' =>
                  rw [hr] at h
                  cases h
                  obtain ⟨ih1, ih2⟩ := ih hr
                  simp only [StepOut.evl] at hevl
                  subst hevl
                  constructor
                  · intro q hq
                    rcases List.mem_append.mp hq with hq | hq
                    · obtain ⟨e, he, rfl⟩ := List.mem_map.mp hq
                      exact hframe e he
                    · intro a ha
                      rw [ih1 q hq a ha]
                      exact hbuf
                  · rw [ih2]
                    exact hbuf

/-- First frame with a generator implementation: the generator function is
invoked to create the iterator (no resume), `this.next` and `this.cleanup`
are captured, and the synthesized output is the literal `0`. -/
theorem frameStep_first_gen (g : GenImpl γ) (pp : List (String × List Sample))
    (changed : List String) (input : List (List Sample))
    (s : State γ κ) (output : List (List Sample)) (frame : Nat)
    (hres : s.resolved = .unresolved) (hd : s.isDone = false) :
    frameStep (Implementation.gen g) pp changed input (fun _ => false) s output frame =
      .ok (.cont
        { s with
          resolved := .genIter g.resume
            (g.init (frameArgsAt pp changed input (fun _ => false) s frame))
          cleanup := g.hasReturn
          isDone := false
          params := updateChanged pp changed frame s.params
          inputBuf := updateInput s.inputBuf input frame }
        (shape (.num 0) output frame)
        [(frame, .genCreate (frameArgsAt pp changed input (fun _ => false) s frame))]) := by
  unfold frameStep
  dsimp only
  rw [show (if (false = true) then stop s else s) = s from rfl]
  rw [hres]
  dsimp only [callNext, first]
  rw [hd]
  rw [if_neg (show ¬ (false = true) by simp)]
  rfl

/-- First frame with a class implementation whose instance has no `next`:
the adapter throws the initialization error. -/
theorem frameStep_first_cls_none (ct : Unit → κ) (pp : List (String × List Sample))
    (changed : List String) (input : List (List Sample))
    (s : State γ κ) (output : List (List Sample)) (frame : Nat)
    (hres : s.resolved = .unresolved) :
    frameStep (Implementation.cls ⟨ct, none⟩) pp changed input (fun _ => false)
        s output frame = .error .initializationError := by
  unfold frameStep
  dsimp only
  rw [show (if (false = true) then stop s else s) = s from rfl]
  rw [hres]
  rfl

/-- A `process` call with `doneFlag` already true throws the
ContractViolation (`RangeError`) before doing anything else. -/
theorem process_done_error (impl : Implementation γ κ) (po : Bool)
    (s : State γ κ) (inputs outputs pp sr stopsAt) (h : s.isDone = true) :
    process impl po s inputs outputs pp sr stopsAt = .error .contractViolation := by
  unfold process
  rw [h]
  rfl

theorem runFrames_posted_of_process {impl : Implementation γ κ}
    {po : Bool} {s : State γ κ} {inputs outputs pp sr stopsAt res}
    (h : process impl po s inputs outputs pp sr stopsAt = .ok res) :
    res.posted = [] ∨ (res.posted = ["done"] ∧ res.st.isDone = true) := by
  unfold process at h
  split at h
  · cases h
  · exact runFrames_posted h

theorem handleMessage_isDone_mono (s : State γ κ) (d : String)
    (h : s.isDone = true) : (handleMessage s d).isDone = true := by
  unfold handleMessage
  split
  · rfl
  · exact h

/-- Lifetime invariant behind the done-notification accounting: the number of
`"done"` messages posted so far is at most one, and if one was posted the
`doneFlag` is set. -/
theorem runEvents_done_invariant (impl : Implementation γ κ) (po : Bool) :
    ∀ (events : List HostEvent) (w : World γ κ),
      w.posted.count "done" ≤ 1 →
      (w.posted.count "done" = 1 → w.st.isDone = true) →
      (runEvents impl po events w).posted.count "done" ≤ 1 ∧
      ((runEvents impl po events w).posted.count "done" = 1 →
        (runEvents impl po events w).st.isDone = true) := by
  intro events
  induction events with
  | nil => intro w h1 h2; exact ⟨h1, h2⟩
  | cons ev rest ih =>
      intro w h1 h2
      cases ev with
      | msg d =>
          rw [runEvents]
          exact ih _ h1 (fun hc => handleMessage_isDone_mono _ _ (h2 hc))
      | block ins outs pp sr =>
          rw [runEvents]
          cases hdone : w.st.isDone with
          | true =>
              rw [process_done_error impl po w.st ins outs pp sr _ hdone]
              exact ih _ h1 (fun _ => hdone)
          | false =>
              have hzero : w.posted.count "done" = 0 := by
                rcases Nat.lt_or_ge (w.posted.count "done") 1 with hlt | hge
                · omega
                · have : w.posted.count "done" = 1 := by omega
                  rw [h2 this] at hdone
                  cases hdone
              cases hp : process impl po w.st ins outs pp sr (fun _ => false) with
              | error e => exact ih _ h1 h2
              | ok res =>
                  rcases runFrames_posted_of_process hp with hres | ⟨hres, hst⟩
                  · refine ih _ ?_ ?_
                    · rw [List.count_append, hres]
                      simpa using h1
                    · intro hc
                      rw [List.count_append, hres] at hc
                      simp only [List.count_nil, Nat.add_zero] at hc
                      rw [hzero] at hc
                      cases hc
                  · refine ih _ ?_ ?_
                    · rw [List.count_append, hres, hzero]
                      simp
                    · intro _
                      exact hst

/-! ### Claim theorems -/

/-- C2: in the frame loop, a frame that does not take the done early-return
writes `shape value output frame` into the output buffers (lines 97-113), and
`shape` obeys the per-frame rule: a sequence whose length is at least the
output channel count is copied positionally into the channels at this frame
index; a shorter (nonempty) sequence has its first entry written to every
channel (mono fallback); a scalar is written to every channel. -/
theorem c2_output_shaping {γ κ : Type} (impl : Implementation γ κ)
    (pp : List (String × List Sample)) (changed : List String)
    (input : List (List Sample)) (stopsAt : Nat → Bool) (s : State γ κ)
    (output : List (List Sample)) (frame : Nat) (a : List Sample) (x : Sample)
    (ch : Nat) (hch : ch < output.length)
    (hf : frame < (output.getD ch []).length) :
    (∀ s' out' evl, frameStep impl pp changed input stopsAt s output frame =
        .ok (.cont s' out' evl) → ∃ v, out' = shape v output frame) ∧
    (output.length ≤ a.length →
      ((shape (.arr a) output frame).getD ch []).getD frame 0 = a.getD ch 0) ∧
    (a.length < output.length → a ≠ [] →
      ((shape (.arr a) output frame).getD ch []).getD frame 0 = a.getD 0 0) ∧
    ((shape (.num x) output frame).getD ch []).getD frame 0 = x := by
  refine ⟨?_, ?_, ?_, ?_⟩
  · intro s' out' evl h
    obtain ⟨fo, r', cl', evs, _, _, _, _, _, _, hcont⟩ := frameStep_elim h
    exact (hcont s' out' evl rfl).2
  · intro h
    exact getD_shape_arr_wide a output frame ch h hch hf
  · intro h _
    exact getD_shape_arr_narrow a output frame ch h hch hf
  · exact getD_shape_num x output frame ch hch hf

theorem c2_output_shaping_witness :
    ((shape (.arr [1, 2, 3]) [[7], [7]] 0).getD 1 []).getD 0 0 = 2 ∧
    ((shape (.arr [9]) [[7], [7]] 0).getD 1 []).getD 0 0 = 9 ∧
    ((shape (.num 5) [[7], [7]] 0).getD 1 []).getD 0 0 = 5 := by
  have h1 := c2_output_shaping constImpl [] [] [] (fun _ => false)
      (initState Unit Unit 2 44100) [[7], [7]] 0 [1, 2, 3] 5 1 (by decide) (by decide)
  have h2 := c2_output_shaping constImpl [] [] [] (fun _ => false)
      (initState Unit Unit 2 44100) [[7], [7]] 0 [9] 5 1 (by decide) (by decide)
  exact ⟨h1.2.1 (by decide), h2.2.2.1 (by decide) (by decide), h1.2.2.2⟩

/-- C7: a `process` (block-entry) call made while `doneFlag` is already true
raises the ContractViolation error (a thrown `RangeError`, propagated to the
host); this covers a flag set by a received `"stop"` control message in any
letter casing, since such a message forces the flag to true. -/
theorem c7_contract_violation {γ κ : Type} (impl : Implementation γ κ)
    (po : Bool) (s : State γ κ) (inputs outputs : List (List (List Sample)))
    (pp : List (String × List Sample)) (sr : Int) (stopsAt : Nat → Bool)
    (d : String) :
    (s.isDone = true →
      process impl po s inputs outputs pp sr stopsAt = .error .contractViolation) ∧
    (lowercase d = "stop" →
      process impl po (handleMessage s d) inputs outputs pp sr stopsAt =
        .error .contractViolation) := by
  constructor
  · intro h
    exact process_done_error impl po s inputs outputs pp sr stopsAt h
  · intro h
    apply process_done_error
    unfold handleMessage
    rw [if_pos h]
    rfl

theorem c7_contract_violation_witness :
    process constImpl false { initState Unit Unit 2 44100 with isDone := true }
        [] [[[0]]] [] 44100 (fun _ => false) = .error .contractViolation ∧
    process constImpl false (handleMessage (initState Unit Unit 2 44100) "SToP")
        [] [[[0]]] [] 44100 (fun _ => false) = .error .contractViolation := by
  have h1 := c7_contract_violation constImpl false
      { initState Unit Unit 2 44100 with isDone := true }
      [] [[[0]]] [] 44100 (fun _ => false) "SToP"
  have h2 := c7_contract_violation constImpl false (initState Unit Unit 2 44100)
      [] [[[0]]] [] 44100 (fun _ => false) "SToP"
  exact ⟨h1.1 rfl, h2.2 (by decide)⟩

/-- C10: when the callable's result at frame `k` carries `done = true`, the
accompanying value is discarded and the call returns immediately after posting
`"done"`: output entries for frames `k` and later (on every channel) are left
exactly as the host supplied them. (`res.cont = false` with `processOnly =
false` and all logged invocations at frames `≤ k` characterize a block whose
loop ended at frame `k` through the done branch.) -/
theorem c10_done_discards_value {γ κ : Type} (impl : Implementation γ κ)
    (s : State γ κ) (inputs outputs : List (List (List Sample)))
    (pp : List (String × List Sample)) (sr : Int) (k : Nat)
    (res : BlockRes γ κ) (hd : s.isDone = false)
    (h : process impl false s inputs outputs pp sr (fun _ => false) = .ok res)
    (hcont : res.cont = false) (hk : ∀ q ∈ res.log, q.1 ≤ k) :
    res.posted = ["done"] ∧
    ∀ ch f, k ≤ f →
      (res.output.getD ch []).getD f 0 =
        ((outputs.getD 0 []).getD ch []).getD f 0 := by
  unfold process at h
  rw [hd] at h
  rw [if_neg (show ¬(false = true) by simp)] at h
  dsimp only at h
  obtain ⟨j, hj1, ⟨e, hje⟩, hp, hout⟩ := runFrames_earlydone h hcont
  refine ⟨hp, ?_⟩
  intro ch f hf
  have hjk : j ≤ k := hk (j, e) hje
  exact hout ch f (Or.inr (by omega))

theorem c10_done_discards_value_witness :
    c10res.posted = ["done"] ∧
    (c10res.output.getD 0 []).getD 2 0 =
      (([[7, 7, 7]] : List (List Sample)).getD 0 []).getD 2 0 := by
  have h := c10_done_discards_value (genYieldImpl 9 true false)
      (initState Unit Unit 2 44100) [] [[[7, 7, 7]]] [] 44100 1 c10res
      rfl rfl rfl (by decide)
  exact ⟨h.1, h.2 0 2 (by omega)⟩

/-- C3: for a generator (Coroutine) implementation, the first frame ever
processed succeeds and writes the synthesized zero to every output channel no
matter what the generator would yield, and every resume of the iterator is
logged at a frame index of at least 1: the generator is not resumed during
frame 0. -/
theorem c3_generator_first_frame {γ κ : Type} (g : GenImpl γ) (po : Bool)
    (s : State γ κ) (inputs outputs : List (List (List Sample)))
    (pp : List (String × List Sample)) (sr : Int)
    (hres : s.resolved = .unresolved) (hd : s.isDone = false)
    (hbs : 1 ≤ ((outputs.getD 0 []).getD 0 []).length)
    (hch : ∀ c ∈ outputs.getD 0 [],
      c.length = ((outputs.getD 0 []).getD 0 []).length) :
    ∃ res, process (Implementation.gen g) po s inputs outputs pp sr
        (fun _ => false) = .ok res ∧
      (∀ ch, ch < (outputs.getD 0 []).length →
        (res.output.getD ch []).getD 0 0 = 0) ∧
      (∀ q ∈ res.log, q.2.isGenResume = true → 1 ≤ q.1) := by
  unfold process
  rw [if_neg (show ¬(s.isDone = true) by rw [hd]; simp)]
  dsimp only
  obtain ⟨m, hm⟩ : ∃ m, ((outputs.getD 0 []).getD 0 []).length = m + 1 :=
    ⟨((outputs.getD 0 []).getD 0 []).length - 1, by omega⟩
  rw [hm, runFrames]
  rw [frameStep_first_gen g pp (snapshotParams pp s.params).2 (inputs.getD 0 [])
    { s with params := (snapshotParams pp s.params).1,
             env := ⟨(outputs.getD 0 []).length, sr⟩ }
    (outputs.getD 0 []) 0 hres hd]
  dsimp only
  obtain ⟨res', hr⟩ := @runFrames_ok γ κ (Implementation.gen g) po pp
    (snapshotParams pp s.params).2 (inputs.getD 0 []) (fun _ => false)
    (fun c hc => by cases hc) m _ _ _
  rw [hr]
  refine ⟨_, rfl, ?_, ?_⟩
  · intro ch hch2
    have hloc := runFrames_locality hr ch 0 (by omega)
    rw [hloc]
    refine getD_shape_num 0 _ 0 ch hch2 ?_
    have hcm : (outputs.getD 0 []).getD ch [] ∈ outputs.getD 0 [] :=
      getD_mem _ _ _ hch2
    rw [hch _ hcm]
    omega
  · intro q hq hgr
    rcases List.mem_append.mp hq with hq | hq
    · rcases List.mem_singleton.mp hq with rfl
      simp [CallEvent.isGenResume] at hgr
    · exact (runFrames_log_bounds hr q hq).1

theorem c3_generator_first_frame_witness :
    ∃ res, process (Implementation.gen c3gen) false (initState Unit Unit 2 44100)
        [] [[[7, 7]]] [] 44100 (fun _ => false) = .ok res ∧
      (∀ ch, ch < ([[[7, 7]]].getD 0 ([] : List (List Sample))).length →
        (res.output.getD ch []).getD 0 0 = 0) ∧
      (∀ q ∈ res.log, q.2.isGenResume = true → 1 ≤ q.1) :=
  c3_generator_first_frame c3gen false (initState Unit Unit 2 44100)
    [] [[[7, 7]]] [] 44100 rfl rfl (by decide) (by decide)

/-- C1: for every block call and every parameter `name` in the block's
automation mapping (assoc list `pp` with distinct keys): every invocation of
the implementation logged at frame `q.1` observes, when the automation array's
length equals the block size, the array's entry at position `q.1`, and, when
the array has length 1, the array's single entry (a block-wide constant). -/
theorem c1_parameter_automation_observed {γ κ : Type} (impl : Implementation γ κ)
    (po : Bool) (s : State γ κ) (inputs outputs : List (List (List Sample)))
    (pp : List (String × List Sample)) (sr : Int) (stopsAt : Nat → Bool)
    (name : String) (arr : List Sample) (res : BlockRes γ κ)
    (hnd : (pp.map Prod.fst).Nodup) (hd : s.isDone = false)
    (h : process impl po s inputs outputs pp sr stopsAt = .ok res)
    (hlk : lookupKey name pp = some arr) :
    ∀ q ∈ res.log, ∀ a, q.2.args = some a →
      (arr.length = ((outputs.getD 0 []).getD 0 []).length →
        a.parameters name = arr.getD q.1 0) ∧
      (arr.length = 1 → a.parameters name = arr.getD 0 0) := by
  unfold process at h
  rw [hd] at h
  rw [if_neg (show ¬(false = true) by simp)] at h
  dsimp only at h
  have hchnd := snapshotParams_snd_nodup pp s.params hnd
  have hmain := runFrames_params hchnd h
    (fun k arr2 hk2 _ => snapshotParams_fst pp s.params k arr2 hnd hk2)
  have hbounds := runFrames_log_bounds h
  have hmem := mem_snapshotParams_snd_iff pp s.params name hnd
  intro q hq a ha
  have hq1 := hmain q hq a ha name arr hlk
  have hnotmem : arr.length = 1 → name ∉ (snapshotParams pp s.params).2 := by
    intro hb1 hcmem
    obtain ⟨arr2, harr2, hne⟩ := hmem.mp hcmem
    rw [hlk] at harr2
    have heq := Option.some.inj harr2
    exact hne (heq ▸ hb1)
  constructor
  · intro hlen
    by_cases hb1 : arr.length = 1
    · rw [if_neg (hnotmem hb1)] at hq1
      have hb := (hbounds q hq).2
      rw [← hlen, hb1] at hb
      have hq10 : q.1 = 0 := by omega
      rw [hq10]
      exact hq1
    · have hm : name ∈ (snapshotParams pp s.params).2 := hmem.mpr ⟨arr, hlk, hb1⟩
      rw [if_pos hm] at hq1
      exact hq1
  · intro hb1
    rw [if_neg (hnotmem hb1)] at hq1
    exact hq1

theorem c1_parameter_automation_observed_witness :
    (c1pair.2.args.getD junkArgs).parameters "gain" = 2 := by
  have hg : c1res.log.get? 1 = some c1pair := rfl
  have hmem : c1pair ∈ c1res.log := List.get?_mem hg
  have h := c1_parameter_automation_observed echoImpl false
      (initState Unit Unit 2 44100) [] [[[0, 0]]] [("gain", [1, 2])] 44100
      (fun _ => false) "gain" [1, 2] c1res (by simp) rfl rfl rfl
  exact (h c1pair hmem (c1pair.2.args.getD junkArgs) rfl).1 rfl

/-- C4 counterexample: after a block with one live input channel (sample 5),
a second block with a disconnected input bus (zero live channels) lets the
callable observe an input snapshot of length 1 holding the stale sample 5 —
not length 0 — because the resize `this.args.input.length = input.length`
sits inside the per-channel copy loop, which does not run when there are no
channels.  No call errored (`errs = 0`). -/
theorem c4_input_refresh_counterexample :
    ((c4w.log.getD 1 (0, .ctorCall)).2.args.map FrameArgs.input).getD [] = [5] ∧
    c4w.errs = 0 :=
  ⟨rfl, rfl⟩

/-- C4 amended: whenever the live input channel count is at least 1, every
invocation during the block observes `FrameContext.input` with length exactly
that channel count, holding each channel's sample at the current frame index;
when the count is 0, the per-frame refresh leaves the previous contents of
`FrameContext.input` in place (so its length is 0 only if it was already
empty, e.g. no input was ever connected). -/
theorem c4_input_refresh_amended {γ κ : Type} (impl : Implementation γ κ)
    (po : Bool) (s : State γ κ) (inputs outputs : List (List (List Sample)))
    (pp : List (String × List Sample)) (sr : Int) (stopsAt : Nat → Bool)
    (res : BlockRes γ κ) (hd : s.isDone = false)
    (h : process impl po s inputs outputs pp sr stopsAt = .ok res) :
    (1 ≤ (inputs.getD 0 []).length →
      ∀ q ∈ res.log, ∀ a, q.2.args = some a →
        a.input.length = (inputs.getD 0 []).length ∧
        ∀ ch, ch < (inputs.getD 0 []).length →
          a.input.getD ch 0 = ((inputs.getD 0 []).getD ch []).getD q.1 0) ∧
    (inputs.getD 0 [] = [] →
      ∀ q ∈ res.log, ∀ a, q.2.args = some a → a.input = s.inputBuf) := by
  unfold process at h
  rw [hd] at h
  rw [if_neg (show ¬(false = true) by simp)] at h
  dsimp only at h
  constructor
  · intro hL
    exact runFrames_input hL h
  · intro hnil
    rw [hnil] at h
    exact fun q hq a ha => (runFrames_input_nil h).1 q hq a ha

theorem c4_input_refresh_amended_witness :
    (c4pair.2.args.getD junkArgs).input.getD 0 0 = 5 := by
  have hg : c4res.log.get? 0 = some c4pair := rfl
  have hmem : c4pair ∈ c4res.log := List.get?_mem hg
  have h := c4_input_refresh_amended echoImpl false (initState Unit Unit 2 44100)
      [[[5]]] [[[0]]] [] 44100 (fun _ => false) c4res rfl rfl
  exact (h.1 (by decide) c4pair hmem (c4pair.2.args.getD junkArgs) rfl).2 0 (by decide)

/-- C5 counterexample: with a stop delivered at the boundary before frame 1
of an in-progress two-frame block, the `stop()` handler runs (the captured
cleanup runs once, which only happens after `isDone` was set to true), yet
the resolved generator is resumed once more at frame 1, and its wrapped
`{done := false}` result overwrites `doneFlag` back to false: the flag is not
monotonic under mid-block stops and the callable is invoked again. -/
theorem c5_doneflag_counterexample :
    c5res.st.cleanupRuns = 1 ∧ c5res.st.isDone = false ∧
    c5res.log.map (fun (q : Nat × CallEvent) => (q.1, q.2.isGenResume)) =
      [(0, false), (1, true)] :=
  ⟨rfl, rfl, rfl⟩

/-- C5 amended: under the single-threaded host semantics (messages delivered
only between `process` calls), once `doneFlag` is true it stays true across
any further sequence of host events, and the resolved callable is never
invoked again: every later `process` call fails at entry, so the lifetime
invocation log never grows.  (A stop delivered between frames of an
in-progress block does not enjoy this: see the counterexample.) -/
theorem c5_doneflag_amended {γ κ : Type} (impl : Implementation γ κ)
    (po : Bool) (events : List HostEvent) (w : World γ κ)
    (hd : w.st.isDone = true) :
    (runEvents impl po events w).st.isDone = true ∧
    (runEvents impl po events w).log = w.log := by
  induction events generalizing w with
  | nil => exact ⟨hd, rfl⟩
  | cons ev rest ih =>
      cases ev with
      | msg d =>
          rw [runEvents]
          exact ih { w with st := handleMessage w.st d }
            (handleMessage_isDone_mono w.st d hd)
      | block ins outs pp sr =>
          rw [runEvents]
          rw [process_done_error impl po w.st ins outs pp sr _ hd]
          exact ih { w with errs := w.errs + 1 } hd

theorem c5_doneflag_amended_witness :
    (runEvents constImpl false [.block [] [[[0]]] [] 44100, .msg "stop"]
      ⟨{ initState Unit Unit 2 44100 with isDone := true }, [], [], 0⟩).st.isDone
        = true ∧
    (runEvents constImpl false [.block [] [[[0]]] [] 44100, .msg "stop"]
      ⟨{ initState Unit Unit 2 44100 with isDone := true }, [], [], 0⟩).log
        = [] :=
  c5_doneflag_amended constImpl false [.block [] [[[0]]] [] 44100, .msg "stop"]
    ⟨{ initState Unit Unit 2 44100 with isDone := true }, [], [], 0⟩ rfl

/-- C6 counterexample: in the execution "stop message, then a block call",
the block call raises the ContractViolation (one error counted) and nothing
is ever posted: the lifetime count of `"done"` emissions is 0, not exactly 1.
The stop path does not emit `"done"`, and a subsequent `process` call throws
instead of emitting it. -/
theorem c6_done_emission_counterexample :
    c6w.posted = [] ∧ c6w.errs = 1 :=
  ⟨rfl, rfl⟩

/-- C6 amended: at most one `"done"` notification is emitted per adapter
lifetime, and it can only come from the frame loop on an implementation
result carrying `done = true` (the only `postMessage('done')` site): after it
is emitted `doneFlag` is true, so every later block-entry call raises
ContractViolation without emitting anything, and executions that never
complete (or that are stopped externally) emit zero `"done"` messages. -/
theorem c6_done_emission_amended {γ κ : Type} (impl : Implementation γ κ)
    (po : Bool) (events : List HostEvent) (occ : Nat) (sr : Int) :
    ((runEvents impl po events (initWorld γ κ occ sr)).posted.count "done") ≤ 1 :=
  (runEvents_done_invariant impl po events (initWorld γ κ occ sr)
    (by simp [initWorld]) (by simp [initWorld])).1

/-- C8 counterexample: the first log entry of a Stateful (class) block is the
constructor invocation, and that invocation carries no `FrameArgs`: the
source constructs the instance with `new (implementation.impl)()` — no
arguments — so the FrameContext is not passed into the constructor. -/
theorem c8_ctor_counterexample :
    c8res.log.getD 0 (0, .classNext junkArgs) = (0, .ctorCall) ∧
    (c8res.log.getD 0 (0, .classNext junkArgs)).2.args = none :=
  ⟨rfl, rfl⟩

/-- C8 amended: for the Stateful variant, on the first frame exactly one
instance is constructed — by a constructor invoked with no arguments (the
FrameContext is not passed to it) — and if the instance exposes `next`, that
capability is memoized and invoked immediately to produce frame 0's output
(the log begins with the constructor call followed by the instance `next`
call at frame 0, and no further constructor call ever happens); if the
instance exposes no `next`, the call raises the InitializationError. -/
theorem c8_stateful_amended {γ κ : Type} (ct : Unit → κ)
    (nf : κ → FrameArgs → FrameOutput × κ) (po : Bool) (s : State γ κ)
    (inputs outputs : List (List (List Sample)))
    (pp : List (String × List Sample)) (sr : Int)
    (hres : s.resolved = .unresolved) (hd : s.isDone = false)
    (hbs : 1 ≤ ((outputs.getD 0 []).getD 0 []).length) :
    (∀ res, process (Implementation.cls ⟨ct, some nf⟩) po s inputs outputs pp sr
        (fun _ => false) = .ok res →
      res.log.countP (fun q => q.2.isCtorCall) = 1 ∧
      ∃ a, res.log.take 2 = [(0, .ctorCall), (0, .classNext a)]) ∧
    process (Implementation.cls ⟨ct, none⟩) po s inputs outputs pp sr
      (fun _ => false) = .error .initializationError := by
  obtain ⟨m, hm⟩ : ∃ m, ((outputs.getD 0 []).getD 0 []).length = m + 1 :=
    ⟨((outputs.getD 0 []).getD 0 []).length - 1, by omega⟩
  constructor
  · intro res h
    unfold process at h
    rw [if_neg (show ¬(s.isDone = true) by rw [hd]; simp)] at h
    dsimp only at h
    rw [hm, runFrames] at h
    cases hf : frameStep (Implementation.cls ⟨ct, some nf⟩) pp
        (snapshotParams pp s.params).2 (inputs.getD 0 []) (fun _ => false)
        { s with params := (snapshotParams pp s.params).1,
                 env := ⟨(outputs.getD 0 []).length, sr⟩ }
        (outputs.getD 0 []) 0 with
    | error e => rw [hf] at h; cases h
    | ok so =>
        rw [hf] at h
        obtain ⟨fo, r', cl', evs, hc, hevl, hsres, _, _, _, _⟩ := frameStep_elim hf
        rw [preState_resolved] at hc
        dsimp only at hc
        rw [hres] at hc
        simp only [callNext, first] at hc
        have hinj := Except.ok.inj hc
        cases hinj
        cases so with
        | done s' evl =>
            cases h
            simp only [StepOut.evl] at hevl
            subst hevl
            constructor
            · simp [List.countP_cons, CallEvent.isCtorCall]
            · exact ⟨_, rfl⟩
        | cont s' out' evl =>
            dsimp only at h
            cases hr : runFrames (Implementation.cls ⟨ct, some nf⟩) po pp
                (snapshotParams pp s.params).2 (inputs.getD 0 [])
                (fun _ => false) m s' out' (0 + 1) with
            | error e => rw [hr] at h; cases h
            | ok res' =>
                rw [hr] at h
                cases h
                simp only [StepOut.evl] at hevl
                subst hevl
                have hsres2 : s'.resolved = _ := hsres
                have hne : s'.resolved ≠ .unresolved := by
                  rw [hsres2]
                  simp
                constructor
                · rw [List.countP_append]
                  have hz : res'.log.countP (fun q => q.2.isCtorCall) = 0 := by
                    rw [List.countP_eq_zero]
                    intro q hq
                    rw [runFrames_no_ctor hr hne q hq]
                    simp
                  rw [hz]
                  simp [List.countP_cons, CallEvent.isCtorCall]
                · exact ⟨_, rfl⟩
  · unfold process
    rw [if_neg (show ¬(s.isDone = true) by rw [hd]; simp)]
    dsimp only
    rw [hm, runFrames]
    rw [frameStep_first_cls_none ct pp (snapshotParams pp s.params).2
      (inputs.getD 0 [])
      { s with params := (snapshotParams pp s.params).1,
               env := ⟨(outputs.getD 0 []).length, sr⟩ }
      (outputs.getD 0 []) 0 hres]

theorem c8_stateful_amended_witness :
    c8res.log.countP (fun q => q.2.isCtorCall) = 1 ∧
    process (Implementation.cls (⟨fun _ => (0 : Nat), none⟩ : ClsImpl Nat))
      false (initState Unit Nat 2 44100) [] [[[0, 0]]] [] 44100
      (fun _ => false) = .error .initializationError := by
  have h := c8_stateful_amended (fun _ => (0 : Nat))
      (fun st _ => (.out (.num 1), st + 1)) false (initState Unit Nat 2 44100)
      [] [[[0, 0]]] [] 44100 rfl rfl (by decide)
  exact ⟨(h.1 c8res rfl).1, h.2⟩

/-- C9 counterexample: a generator with a cleanup operation is resolved by a
block call, then two `"stop"` messages arrive: `stop()` runs (and invokes the
captured cleanup) once per message, so the cleanup is invoked twice — not
exactly once per adapter lifetime. -/
theorem c9_cleanup_counterexample :
    c9w.st.cleanupRuns = 2 :=
  rfl

/-- C9 amended: each `stop()` invocation sets `doneFlag` and invokes the
captured cleanup exactly once if one was captured (and no cleanup if none
was), so the cleanup runs once per received stop message rather than once per
lifetime; `process` itself (absent boundary stops) never invokes the
cleanup. -/
theorem c9_cleanup_amended {γ κ : Type} (impl : Implementation γ κ)
    (po : Bool) (s : State γ κ) (inputs outputs : List (List (List Sample)))
    (pp : List (String × List Sample)) (sr : Int) (res : BlockRes γ κ)
    (h : process impl po s inputs outputs pp sr (fun _ => false) = .ok res) :
    (stop s).isDone = true ∧
    (s.cleanup = true → (stop s).cleanupRuns = s.cleanupRuns + 1) ∧
    (s.cleanup = false → (stop s).cleanupRuns = s.cleanupRuns) ∧
    res.st.cleanupRuns = s.cleanupRuns := by
  refine ⟨rfl, ?_, ?_, ?_⟩
  · intro hcl
    simp [stop, hcl]
  · intro hcl
    simp [stop, hcl]
  · unfold process at h
    split at h
    · cases h
    · dsimp only at h
      have hcr := runFrames_cleanupRuns (fun f => rfl) h
      exact hcr

theorem c9_cleanup_amended_witness :
    (stop c9state).isDone = true ∧
    (stop c9state).cleanupRuns = 1 ∧
    c9res.st.cleanupRuns = 0 := by
  have h := c9_cleanup_amended constImpl false c9state [] [[[0]]] [] 44100
      c9res rfl
  exact ⟨h.1, h.2.1 rfl, h.2.2.2⟩

end SAW
